import Mathlib

/-!
Verification of the virginmobile history retrieval and reconciliation engine
(virgin.py): the record model, the window planner, the paginated fetcher and
the reconciler, embedded shallowly over Nat timestamps (seconds).
-/

/-- Record model: the frozen, ordered dataclass Entry of virgin.py.
Timestamps are seconds (datetime at second precision); cost is modelled as an
exact rational (Python float), quantity as an integer. -/
structure Entry where
  date : Nat
  type : String
  direction : String
  quantity : Int
  cost : Rat
  number : String
deriving DecidableEq

/-- Python dataclass order=True comparison: lexicographic over the fields in
declaration order, exactly tuple comparison (first differing field decides). -/
def entryLt (x y : Entry) : Bool :=
  if x.date ≠ y.date then decide (x.date < y.date)
  else if x.type ≠ y.type then decide (x.type < y.type)
  else if x.direction ≠ y.direction then decide (x.direction < y.direction)
  else if x.quantity ≠ y.quantity then decide (x.quantity < y.quantity)
  else if x.cost ≠ y.cost then decide (x.cost < y.cost)
  else decide (x.number < y.number)

/-- Reflexive closure of entryLt, the order used by sorted(set(entries)). -/
def entryLe (x y : Entry) : Prop := entryLt x y = true ∨ x = y

instance : DecidableRel entryLe := fun x y =>
  inferInstanceAs (Decidable (_ ∨ _))

/-- Model of sorted(set(entries)) from main: the distinct records of the list
in ascending full-tuple order. -/
def sortedDedup (l : List Entry) : List Entry :=
  List.insertionSort entryLe l.dedup

/-- One raw element of the remote response's records list (or one archived CSV
row), with its numeric fields already read as numbers: date (parsed timestamp,
seconds), type, direction, quantity, price, number. -/
structure RawRecord where
  date : Nat
  type : String
  direction : String
  quantity : Int
  price : Rat
  number : String
deriving DecidableEq

/-- The decoding done in iter_history_step (and for CSV rows in main): each
field is carried over as parsed, with no validation or clamping. -/
def decodeRecord (r : RawRecord) : Entry :=
  ⟨r.date, r.type, r.direction, r.quantity, r.price, r.number⟩

/-- step = timedelta(days=15), in seconds. -/
def STEP : Nat := 15 * 86400

/-- pageSize = 500. -/
def pageSize : Nat := 500

/-- The while-loop of iter_history: while start <= end, emit the window
(start, min (end) (start + step)) and advance start by step.  The fuel
argument bounds the number of iterations; planWindows supplies enough. -/
def planWindowsAux : Nat → Nat → Nat → List (Nat × Nat)
  | 0, _, _ => []
  | fuel + 1, s, e =>
    if s ≤ e then (s, min e (s + STEP)) :: planWindowsAux fuel (s + STEP) e
    else []

/-- The window sequence of iter_history for a clamped end e: the loop runs at
most (e - s) / STEP + 1 times, so that much fuel is exact. -/
def planWindows (s e : Nat) : List (Nat × Nat) :=
  planWindowsAux ((e - s) / STEP + 1) s e

/-- iter_history: end is first clamped to now (never request future data),
then the range is chunked into windows of at most 15 days. -/
def iterHistoryPlan (start e now : Nat) : List (Nat × Nat) :=
  planWindows start (min e now)

/-- Proleptic Gregorian leap year, as in Python's datetime. -/
def isLeap (y : Nat) : Bool :=
  (y % 4 == 0 && y % 100 != 0) || (y % 400 == 0)

/-- Length of month m of year y (months 1-12). -/
def daysInMonth (y m : Nat) : Nat :=
  if m == 2 then (if isLeap y then 29 else 28)
  else if m == 4 || m == 6 || m == 9 || m == 11 then 30
  else 31

/-- Days in months 1 .. m-1 of year y. -/
def daysBeforeMonth (y m : Nat) : Nat :=
  ((List.range' 1 (m - 1)).map (daysInMonth y)).sum

/-- Days in all years before year y (Python date ordinal arithmetic). -/
def daysBeforeYear (y : Nat) : Nat :=
  365 * (y - 1) + (y - 1) / 4 - (y - 1) / 100 + (y - 1) / 400

/-- datetime(y, m, d, hh, mi, ss) as seconds on the proleptic Gregorian
calendar (Python ordinal minus one, times 86400, plus the time of day). -/
def dtSecs (y m d hh mi ss : Nat) : Nat :=
  (daysBeforeYear y + daysBeforeMonth y m + (d - 1)) * 86400
    + hh * 3600 + mi * 60 + ss

/-- iter_history_month: start is the first instant of the month, end is the
first instant of the next month minus one second, then iter_history runs. -/
def iterHistoryMonthPlan (year month now : Nat) : List (Nat × Nat) :=
  let start := dtSecs year month 1 0 0 0
  let e := (if month == 12 then dtSecs (year + 1) 1 1 0 0 0
            else dtSecs year (month + 1) 1 0 0 0) - 1
  iterHistoryPlan start e now

/-- The page loop of iter_history_step for one sub-range: request the page,
decode and emit its records, stop as soon as a page is shorter than pageSize,
else continue with the next page index.  Returns the decoded records and the
list of page indices requested, in order.  The transport t maps a page index
to the raw records the remote service returns for it. -/
def iterHistoryStepAux (t : Nat → List RawRecord) : Nat → Nat → List Entry × List Nat
  | 0, _ => ([], [])
  | fuel + 1, page =>
    let recs := t page
    if recs.length < pageSize then (recs.map decodeRecord, [page])
    else
      let next := iterHistoryStepAux t fuel (page + 1)
      (recs.map decodeRecord ++ next.1, page :: next.2)

/-- Identity key of a record: the pair (date, type), as in cat. -/
def keyOf (e : Entry) : Nat × String := (e.date, e.type)

/-- Python tuple comparison on (datetime, str) keys, reflexive form. -/
def keyLe (k1 k2 : Nat × String) : Prop :=
  k1.1 < k2.1 ∨ (k1.1 = k2.1 ∧ k1.2 ≤ k2.2)

/-- Strict Python tuple comparison on (datetime, str) keys. -/
def keyLt (k1 k2 : Nat × String) : Prop :=
  k1.1 < k2.1 ∨ (k1.1 = k2.1 ∧ k1.2 < k2.2)

instance : DecidableRel keyLe := fun k1 k2 =>
  inferInstanceAs (Decidable (_ ∨ _))

instance : DecidableRel keyLt := fun k1 k2 =>
  inferInstanceAs (Decidable (_ ∨ _))

instance : IsTotal (Nat × String) keyLe :=
  ⟨by
    intro a b
    rcases Nat.lt_trichotomy a.1 b.1 with h | h | h
    · exact Or.inl (Or.inl h)
    · rcases le_total a.2 b.2 with h2 | h2
      · exact Or.inl (Or.inr ⟨h, h2⟩)
      · exact Or.inr (Or.inr ⟨h.symm, h2⟩)
    · exact Or.inr (Or.inl h)⟩

instance : IsTrans (Nat × String) keyLe :=
  ⟨by
    intro a b c hab hbc
    rcases hab with h1 | ⟨h1, h1s⟩ <;> rcases hbc with h2 | ⟨h2, h2s⟩
    · exact Or.inl (h1.trans h2)
    · exact Or.inl (h2 ▸ h1)
    · exact Or.inl (h1 ▸ h2)
    · exact Or.inr ⟨h1.trans h2, h1s.trans h2s⟩⟩

instance : IsAntisymm (Nat × String) keyLe :=
  ⟨by
    intro a b hab hba
    rcases hab with h1 | ⟨h1, h1s⟩ <;> rcases hba with h2 | ⟨h2, h2s⟩
    · omega
    · omega
    · omega
    · exact Prod.ext h1 (le_antisymm h1s h2s)⟩

/-- Python max(elements, key=quantity): fold keeping the current best,
replacing it only on a strictly larger quantity, so the first element
attaining the maximum wins. -/
def maxByQuantity (best : Entry) : List Entry → Entry
  | [] => best
  | e :: rest => maxByQuantity (if best.quantity < e.quantity then e else best) rest

/-- Per-key body of cat: the records of key k across the combined input, in
traversal order; none models the failed assert (or the impossible empty
group), some the yielded representative. -/
def catProcess (l : List Entry) (k : Nat × String) : Option Entry :=
  match l.filter (fun x => decide (keyOf x = k)) with
  | [] => none
  | e :: rest =>
    if k.2 == "DATA" || (e :: rest).all (fun x => x.quantity == e.quantity) then
      some (maxByQuantity e rest)
    else none

/-- The sorted distinct identity keys of the combined input, as iterated by
for key in sorted(c). -/
def catKeys (l : List Entry) : List (Nat × String) :=
  List.insertionSort keyLe (l.map keyOf).dedup

/-- Sequencing of the per-key results: an assertion failure at any key makes
the whole merge fail. -/
def optionMapM (f : α → Option β) : List α → Option (List β)
  | [] => some []
  | k :: ks =>
    match f k, optionMapM f ks with
    | some e, some es => some (e :: es)
    | _, _ => none

/-- cat(a, b): group the records of a then b by identity key, iterate the
keys in ascending order, assert type DATA or all-equal quantities, and yield
the maximum-quantity record of each group. -/
def cat (a b : List Entry) : Option (List Entry) :=
  optionMapM (catProcess (a ++ b)) (catKeys (a ++ b))

/-- Boolean check that each window after the first starts exactly at the
previous window's end (what the code actually guarantees). -/
def chainedAtEnds : List (Nat × Nat) → Bool
  | [] => true
  | [_] => true
  | w1 :: w2 :: rest => (w2.1 == w1.2) && chainedAtEnds (w2 :: rest)

/-- Modelled from the spec: the contiguity clause of the Window Planner
claim, each next sub-range starting exactly one time unit (one second) after
the previous one's end. -/
def chainedPlusOne : List (Nat × Nat) → Bool
  | [] => true
  | [_] => true
  | w1 :: w2 :: rest => (w2.1 == w1.2 + 1) && chainedPlusOne (w2 :: rest)

/-! ### Helper lemmas about maxByQuantity -/

lemma maxByQuantity_mem (l : List Entry) : ∀ b, maxByQuantity b l ∈ b :: l := by
  induction l with
  | nil => intro b; simp [maxByQuantity]
  | cons e rest ih =>
    intro b
    rw [maxByQuantity]
    by_cases hq : b.quantity < e.quantity
    · rw [if_pos hq]
      exact List.mem_cons_of_mem _ (ih e)
    · rw [if_neg hq]
      rcases List.mem_cons.mp (ih b) with h | h
      · rw [h]; exact List.mem_cons_self _ _
      · exact List.mem_cons_of_mem _ (List.mem_cons_of_mem _ h)

lemma maxByQuantity_ge (l : List Entry) :
    ∀ b, b.quantity ≤ (maxByQuantity b l).quantity ∧
      ∀ x ∈ l, x.quantity ≤ (maxByQuantity b l).quantity := by
  induction l with
  | nil => intro b; simp [maxByQuantity]
  | cons e rest ih =>
    intro b
    rw [maxByQuantity]
    by_cases hq : b.quantity < e.quantity
    · rw [if_pos hq]
      obtain ⟨h1, h2⟩ := ih e
      refine ⟨le_trans (le_of_lt hq) h1, ?_⟩
      intro x hx
      rcases List.mem_cons.mp hx with rfl | hx
      · exact h1
      · exact h2 x hx
    · rw [if_neg hq]
      obtain ⟨h1, h2⟩ := ih b
      refine ⟨h1, ?_⟩
      intro x hx
      rcases List.mem_cons.mp hx with rfl | hx
      · exact le_trans (le_of_not_lt hq) h1
      · exact h2 x hx

lemma maxByQuantity_eq_self (l : List Entry) :
    ∀ b, (∀ x ∈ l, x.quantity ≤ b.quantity) → maxByQuantity b l = b := by
  induction l with
  | nil => intro b _; rfl
  | cons e rest ih =>
    intro b h
    rw [maxByQuantity]
    have he : ¬ b.quantity < e.quantity := not_lt.mpr (h e (List.mem_cons_self e rest))
    simp only [he, if_neg, not_false_iff]
    exact ih b (fun x hx => h x (List.mem_cons_of_mem _ hx))

lemma maxByQuantity_append (l1 l2 : List Entry) :
    ∀ b, maxByQuantity b (l1 ++ l2) = maxByQuantity (maxByQuantity b l1) l2 := by
  induction l1 with
  | nil => intro b; rfl
  | cons e rest ih =>
    intro b
    rw [List.cons_append, maxByQuantity, maxByQuantity, ih]

lemma maxByQuantity_split (l : List Entry) :
    ∀ b, ∃ l1 l2, b :: l = l1 ++ maxByQuantity b l :: l2 ∧
      (∀ x ∈ l1, x.quantity < (maxByQuantity b l).quantity) ∧
      (∀ x ∈ l2, x.quantity ≤ (maxByQuantity b l).quantity) := by
  induction l with
  | nil => intro b; exact ⟨[], [], rfl, by simp, by simp⟩
  | cons e rest ih =>
    intro b
    rw [maxByQuantity]
    by_cases hq : b.quantity < e.quantity
    · simp only [hq, if_pos]
      obtain ⟨l1, l2, heq, h1, h2⟩ := ih e
      refine ⟨b :: l1, l2, by rw [List.cons_append, ← heq], ?_, h2⟩
      intro x hx
      rcases List.mem_cons.mp hx with rfl | hx
      · exact lt_of_lt_of_le hq (maxByQuantity_ge rest e).1
      · exact h1 x hx
    · simp only [hq, if_neg, not_false_iff]
      obtain ⟨l1, l2, heq, h1, h2⟩ := ih b
      cases l1 with
      | nil =>
        simp only [List.nil_append] at heq
        have hb : maxByQuantity b rest = b := by
          have := congrArg List.head? heq; simpa using this.symm
        refine ⟨[], e :: rest, by simp [hb], by simp, ?_⟩
        intro x hx
        rcases List.mem_cons.mp hx with rfl | hx
        · rw [hb]; exact le_of_not_lt hq
        · exact (maxByQuantity_ge rest b).2 x hx
      | cons y l1' =>
        have hy : y = b := by
          have := congrArg List.head? heq; simpa using this.symm
        subst hy
        have heq' : rest = l1' ++ maxByQuantity y rest :: l2 := by
          simpa using heq
        refine ⟨y :: e :: l1', l2, by rw [List.cons_append, List.cons_append, ← heq'], ?_, h2⟩
        intro x hx
        rcases List.mem_cons.mp hx with rfl | hx
        · exact h1 x (List.mem_cons_self _ _)
        rcases List.mem_cons.mp hx with rfl | hx
        · exact lt_of_le_of_lt (le_of_not_lt hq) (h1 y (List.mem_cons_self _ _))
        · exact h1 x (List.mem_cons_of_mem _ hx)

/-! ### Helper lemmas about optionMapM -/

lemma optionMapM_eq_none {α β : Type} {f : α → Option β} :
    ∀ {ks : List α} (k : α), k ∈ ks → f k = none → optionMapM f ks = none := by
  intro ks
  induction ks with
  | nil => intro k hk; simp at hk
  | cons k' ks ih =>
    intro k hk hf
    rcases List.mem_cons.mp hk with rfl | hk
    · rw [optionMapM, hf]
    · rw [optionMapM, ih k hk hf]
      cases f k' <;> rfl

lemma optionMapM_congr {α β : Type} {f g : α → Option β} :
    ∀ {ks : List α}, (∀ k ∈ ks, f k = g k) → optionMapM f ks = optionMapM g ks := by
  intro ks
  induction ks with
  | nil => intro _; rfl
  | cons k' ks ih =>
    intro h
    rw [optionMapM, optionMapM, h k' (List.mem_cons_self _ _),
      ih (fun k hk => h k (List.mem_cons_of_mem _ hk))]

lemma optionMapM_some_forall₂ {α β : Type} {f : α → Option β} {P : α → β → Prop} :
    ∀ {ks : List α}, (∀ k ∈ ks, ∃ e, f k = some e ∧ P k e) →
      ∃ out, optionMapM f ks = some out ∧ List.Forall₂ P ks out := by
  intro ks
  induction ks with
  | nil => intro _; exact ⟨[], rfl, List.Forall₂.nil⟩
  | cons k ks ih =>
    intro h
    obtain ⟨e, he, hp⟩ := h k (List.mem_cons_self _ _)
    obtain ⟨out, hout, hfa⟩ := ih (fun k' hk' => h k' (List.mem_cons_of_mem _ hk'))
    exact ⟨e :: out, by rw [optionMapM, he, hout], List.Forall₂.cons hp hfa⟩

lemma optionMapM_mem_some {α β : Type} {f : α → Option β} :
    ∀ {ks : List α} {out : List β}, optionMapM f ks = some out →
      ∀ e ∈ out, ∃ k ∈ ks, f k = some e := by
  intro ks
  induction ks with
  | nil =>
    intro out h e he
    rw [optionMapM] at h
    cases h; simp at he
  | cons k ks ih =>
    intro out h e he
    rw [optionMapM] at h
    cases hfk : f k with
    | none => rw [hfk] at h; exact absurd h (by simp)
    | some e' =>
      rw [hfk] at h
      cases hrest : optionMapM f ks with
      | none => rw [hrest] at h; exact absurd h (by simp)
      | some es =>
        rw [hrest] at h
        cases h
        rcases List.mem_cons.mp he with rfl | he
        · exact ⟨k, List.mem_cons_self _ _, hfk⟩
        · obtain ⟨k', hk', hfk'⟩ := ih hrest e he
          exact ⟨k', List.mem_cons_of_mem _ hk', hfk'⟩

/-! ### Helper lemmas about catProcess and catKeys -/

lemma catProcess_eq_nil {l : List Entry} {k : Nat × String}
    (hf : l.filter (fun x => decide (keyOf x = k)) = []) : catProcess l k = none := by
  unfold catProcess
  rw [hf]

lemma catProcess_eq_cons {l : List Entry} {k : Nat × String} {hd : Entry} {tl : List Entry}
    (hf : l.filter (fun x => decide (keyOf x = k)) = hd :: tl) :
    catProcess l k =
      if k.2 == "DATA" || (hd :: tl).all (fun x => x.quantity == hd.quantity) then
        some (maxByQuantity hd tl)
      else none := by
  unfold catProcess
  rw [hf]

lemma catProcess_some_spec {l : List Entry} {k : Nat × String} {e : Entry}
    (h : catProcess l k = some e) :
    keyOf e = k ∧ ∃ l1 l2, l.filter (fun x => decide (keyOf x = k)) = l1 ++ e :: l2 ∧
      (∀ x ∈ l1, x.quantity < e.quantity) ∧ (∀ x ∈ l2, x.quantity ≤ e.quantity) := by
  cases hf : l.filter (fun x => decide (keyOf x = k)) with
  | nil => rw [catProcess_eq_nil hf] at h; exact absurd h (by simp)
  | cons hd tl =>
    rw [catProcess_eq_cons hf] at h
    by_cases hc : (k.2 == "DATA" || (hd :: tl).all fun x => x.quantity == hd.quantity) = true
    · rw [if_pos hc] at h
      have he : maxByQuantity hd tl = e := Option.some.inj h
      have hmem : e ∈ l.filter (fun x => decide (keyOf x = k)) := by
        rw [hf, ← he]; exact maxByQuantity_mem tl hd
      have hkey : keyOf e = k := by
        have := List.of_mem_filter hmem
        simpa using this
      obtain ⟨l1, l2, heq, hlt, hle⟩ := maxByQuantity_split tl hd
      rw [he] at heq hlt hle
      exact ⟨hkey, l1, l2, heq, hlt, hle⟩
    · rw [if_neg hc] at h
      exact absurd h (by simp)

lemma catProcess_some_max {l : List Entry} {k : Nat × String} {e : Entry}
    (h : catProcess l k = some e) :
    e ∈ l ∧ keyOf e = k ∧ ∀ x ∈ l, keyOf x = k → x.quantity ≤ e.quantity := by
  obtain ⟨hk, l1, l2, heq, h1, h2⟩ := catProcess_some_spec h
  have hmem : e ∈ l.filter (fun x => decide (keyOf x = k)) := by
    rw [heq]; exact List.mem_append_right _ (List.mem_cons_self _ _)
  refine ⟨(List.mem_filter.mp hmem).1, hk, ?_⟩
  intro x hx hkx
  have hxf : x ∈ l.filter (fun x => decide (keyOf x = k)) :=
    List.mem_filter.mpr ⟨hx, by simp [hkx]⟩
  rw [heq] at hxf
  rcases List.mem_append.mp hxf with hx1 | hx2
  · exact le_of_lt (h1 x hx1)
  · rcases List.mem_cons.mp hx2 with rfl | hx2
    · exact le_refl _
    · exact h2 x hx2

lemma catProcess_some_of {l : List Entry} {k : Nat × String}
    (hne : ∃ x ∈ l, keyOf x = k)
    (hok : k.2 = "DATA" ∨
      ∀ x ∈ l, keyOf x = k → ∀ y ∈ l, keyOf y = k → x.quantity = y.quantity) :
    ∃ e, catProcess l k = some e := by
  obtain ⟨x, hx, hkx⟩ := hne
  have hxf : x ∈ l.filter (fun z => decide (keyOf z = k)) :=
    List.mem_filter.mpr ⟨hx, by simp [hkx]⟩
  cases hf : l.filter (fun z => decide (keyOf z = k)) with
  | nil => rw [hf] at hxf; simp at hxf
  | cons hd tl =>
    have hmem : ∀ z ∈ hd :: tl, z ∈ l ∧ keyOf z = k := by
      intro z hz
      have hzf : z ∈ l.filter (fun z' => decide (keyOf z' = k)) := by rw [hf]; exact hz
      have hm := List.mem_filter.mp hzf
      exact ⟨hm.1, by simpa using hm.2⟩
    have hcond : (k.2 == "DATA" || (hd :: tl).all fun z => z.quantity == hd.quantity) = true := by
      rcases hok with hdata | hall
      · simp [hdata]
      · simp only [Bool.or_eq_true, List.all_eq_true]
        right
        intro z hz
        obtain ⟨hz1, hz2⟩ := hmem z hz
        obtain ⟨hh1, hh2⟩ := hmem hd (List.mem_cons_self _ _)
        simp [hall z hz1 hz2 hd hh1 hh2]
    exact ⟨maxByQuantity hd tl, by rw [catProcess_eq_cons hf, if_pos hcond]⟩

lemma catProcess_none_of_conflict {l : List Entry} {k : Nat × String} {e1 e2 : Entry}
    (h1 : e1 ∈ l) (h2 : e2 ∈ l) (hk1 : keyOf e1 = k) (hk2 : keyOf e2 = k)
    (hq : e1.quantity ≠ e2.quantity) (hdata : k.2 ≠ "DATA") :
    catProcess l k = none := by
  have h1f : e1 ∈ l.filter (fun z => decide (keyOf z = k)) :=
    List.mem_filter.mpr ⟨h1, by simp [hk1]⟩
  have h2f : e2 ∈ l.filter (fun z => decide (keyOf z = k)) :=
    List.mem_filter.mpr ⟨h2, by simp [hk2]⟩
  cases hf : l.filter (fun z => decide (keyOf z = k)) with
  | nil => rw [hf] at h1f; simp at h1f
  | cons hd tl =>
    rw [hf] at h1f h2f
    have hcond : (k.2 == "DATA" || (hd :: tl).all fun z => z.quantity == hd.quantity) = false := by
      cases hall : (hd :: tl).all fun z => z.quantity == hd.quantity with
      | true =>
        exfalso
        rw [List.all_eq_true] at hall
        have q1 := hall e1 h1f
        have q2 := hall e2 h2f
        rw [beq_iff_eq] at q1 q2
        exact hq (q1.trans q2.symm)
      | false =>
        rw [Bool.or_false]
        exact beq_eq_false_iff_ne.mpr hdata
    rw [catProcess_eq_cons hf, if_neg (by rw [hcond]; simp)]

lemma mem_catKeys {l : List Entry} {k : Nat × String} :
    k ∈ catKeys l ↔ k ∈ l.map keyOf := by
  unfold catKeys
  rw [(List.perm_insertionSort keyLe _).mem_iff, List.mem_dedup]

lemma catKeys_sorted (l : List Entry) : List.Sorted keyLe (catKeys l) :=
  List.sorted_insertionSort keyLe _

lemma catKeys_nodup (l : List Entry) : (catKeys l).Nodup :=
  ((List.perm_insertionSort keyLe _).nodup_iff).mpr (List.nodup_dedup _)

lemma catKeys_pairwise_lt (l : List Entry) : (catKeys l).Pairwise keyLt := by
  have hs : (catKeys l).Pairwise keyLe := catKeys_sorted l
  have hn : (catKeys l).Pairwise (fun a b => a ≠ b) := catKeys_nodup l
  refine (hs.and hn).imp ?_
  rintro a b ⟨hab, hne⟩
  rcases hab with h | ⟨h, hs2⟩
  · exact Or.inl h
  · refine Or.inr ⟨h, lt_of_le_of_ne hs2 ?_⟩
    intro hstr
    exact hne (Prod.ext h hstr)

lemma catKeys_congr_perm {l1 l2 : List Entry}
    (h : (l1.map keyOf).Perm (l2.map keyOf)) : catKeys l1 = catKeys l2 := by
  unfold catKeys
  refine List.eq_of_perm_of_sorted ?_
    (List.sorted_insertionSort keyLe _) (List.sorted_insertionSort keyLe _)
  exact (List.perm_insertionSort keyLe _).trans (h.dedup.trans (List.perm_insertionSort keyLe _).symm)

lemma catKeys_append_self (X : List Entry) : catKeys (X ++ X) = catKeys X := by
  unfold catKeys
  refine List.eq_of_perm_of_sorted ?_
    (List.sorted_insertionSort keyLe _) (List.sorted_insertionSort keyLe _)
  have hn1 : ((X ++ X).map keyOf).dedup.Nodup := List.nodup_dedup _
  have hn2 : (X.map keyOf).dedup.Nodup := List.nodup_dedup _
  have hperm : ((X ++ X).map keyOf).dedup.Perm (X.map keyOf).dedup := by
    rw [List.perm_ext_iff_of_nodup hn1 hn2]
    intro a
    simp [List.mem_dedup]
  exact (List.perm_insertionSort keyLe _).trans
    (hperm.trans (List.perm_insertionSort keyLe _).symm)

/-! ### Helper lemmas about the window planner -/

lemma planWindowsAux_succ_of_le {f s e : Nat} (h : s ≤ e) :
    planWindowsAux (f + 1) s e = (s, min e (s + STEP)) :: planWindowsAux f (s + STEP) e := by
  simp only [planWindowsAux]
  rw [if_pos h]

lemma planWindowsAux_empty {s e : Nat} (h : e < s) (fuel : Nat) :
    planWindowsAux fuel s e = [] := by
  cases fuel with
  | zero => rfl
  | succ f =>
    simp only [planWindowsAux]
    rw [if_neg (Nat.not_le.mpr h)]

lemma div_step_lt {s e f : Nat} (h1 : s + STEP ≤ e) (h2 : (e - s) / STEP < f + 1) :
    (e - (s + STEP)) / STEP < f := by
  have hstep : 0 < STEP := by decide
  have h3 : e - (s + STEP) = (e - s) - STEP := by omega
  rw [h3]
  have h4 : e - s = ((e - s) - STEP) + STEP := by omega
  rw [h4, Nat.add_div_right _ hstep] at h2
  omega

lemma planWindowsAux_mem (e fuel : Nat) :
    ∀ s, ∀ w ∈ planWindowsAux fuel s e,
      s ≤ w.1 ∧ w.1 ≤ e ∧ w.1 ≤ w.2 ∧ w.2 ≤ w.1 + STEP ∧ w.2 ≤ e := by
  induction fuel with
  | zero => intro s w hw; simp [planWindowsAux] at hw
  | succ f ih =>
    intro s w hw
    by_cases hs : s ≤ e
    · rw [planWindowsAux_succ_of_le hs] at hw
      rcases List.mem_cons.mp hw with rfl | hw
      · simp only
        omega
      · have := ih (s + STEP) w hw
        omega
    · rw [planWindowsAux_empty (by omega) _] at hw
      simp at hw

lemma planWindowsAux_last (e : Nat) (fuel : Nat) :
    ∀ s, s ≤ e → (e - s) / STEP < fuel →
      ∃ w, (planWindowsAux fuel s e).getLast? = some w ∧ w.2 = e := by
  induction fuel with
  | zero => intro s hs hf; exact absurd hf (Nat.not_lt_zero _)
  | succ f ih =>
    intro s hs hf
    by_cases hnext : s + STEP ≤ e
    · obtain ⟨w, hw1, hw2⟩ := ih (s + STEP) hnext (div_step_lt hnext hf)
      refine ⟨w, ?_, hw2⟩
      rw [planWindowsAux_succ_of_le hs]
      cases hl : planWindowsAux f (s + STEP) e with
      | nil => rw [hl] at hw1; simp at hw1
      | cons y ys =>
        rw [hl] at hw1
        rw [List.getLast?_cons_cons]
        exact hw1
    · have hmin : min e (s + STEP) = e := by omega
      refine ⟨(s, min e (s + STEP)), ?_, by simpa using hmin⟩
      rw [planWindowsAux_succ_of_le hs, planWindowsAux_empty (by omega) f]
      rfl

lemma planWindowsAux_chain (e fuel : Nat) :
    ∀ s, chainedAtEnds (planWindowsAux fuel s e) = true := by
  induction fuel with
  | zero => intro s; rfl
  | succ f ih =>
    intro s
    by_cases hs : s ≤ e
    · rw [planWindowsAux_succ_of_le hs]
      cases hl : planWindowsAux f (s + STEP) e with
      | nil => rfl
      | cons y ys =>
        obtain ⟨hy1, hnextle⟩ : y.1 = s + STEP ∧ s + STEP ≤ e := by
          cases f with
          | zero => simp [planWindowsAux] at hl
          | succ f2 =>
            by_cases h2 : s + STEP ≤ e
            · rw [planWindowsAux_succ_of_le h2] at hl
              obtain ⟨h3, _⟩ := List.cons.inj hl
              exact ⟨by rw [← h3], h2⟩
            · rw [planWindowsAux_empty (by omega) _] at hl
              exact absurd hl (by simp)
        have hmin : min e (s + STEP) = s + STEP := by omega
        rw [chainedAtEnds]
        have hch : chainedAtEnds (y :: ys) = true := by rw [← hl]; exact ih (s + STEP)
        simp [hy1, hmin, hch]
    · rw [planWindowsAux_empty (by omega) _]
      rfl

lemma planWindowsAux_starts (e fuel : Nat) :
    ∀ s, ((planWindowsAux fuel s e).map Prod.fst).Pairwise (fun x y => x < y) := by
  induction fuel with
  | zero => intro s; simp [planWindowsAux]
  | succ f ih =>
    intro s
    by_cases hs : s ≤ e
    · rw [planWindowsAux_succ_of_le hs]
      rw [List.map_cons]
      refine List.Pairwise.cons ?_ (ih (s + STEP))
      intro y hy
      obtain ⟨w, hw, rfl⟩ := List.mem_map.mp hy
      have := planWindowsAux_mem e f (s + STEP) w hw
      have hstep : 0 < STEP := by decide
      simp only
      omega
    · rw [planWindowsAux_empty (by omega) _]
      simp

lemma planWindowsAux_cover (e : Nat) (fuel : Nat) :
    ∀ s, s ≤ e → (e - s) / STEP < fuel →
      ∀ x, s ≤ x → x ≤ e → ∃ w ∈ planWindowsAux fuel s e, w.1 ≤ x ∧ x ≤ w.2 := by
  induction fuel with
  | zero => intro s hs hf; exact absurd hf (Nat.not_lt_zero _)
  | succ f ih =>
    intro s hs hf x hx1 hx2
    rw [planWindowsAux_succ_of_le hs]
    by_cases hx : x ≤ min e (s + STEP)
    · exact ⟨(s, min e (s + STEP)), List.mem_cons_self _ _, hx1, hx⟩
    · have h1 : s + STEP ≤ e := by omega
      have h2 : s + STEP ≤ x := by omega
      obtain ⟨w, hw, hw2⟩ := ih (s + STEP) h1 (div_step_lt h1 hf) x h2 hx2
      exact ⟨w, List.mem_cons_of_mem _ hw, hw2⟩

/-! ### Helper lemmas about the paginated fetcher -/

lemma iterHistoryStepAux_pages (t : Nat → List RawRecord) (N : Nat)
    (hshort : (t N).length < pageSize) (hfull : ∀ p, p < N → pageSize ≤ (t p).length) :
    ∀ fuel s, s ≤ N → N < s + fuel →
      (iterHistoryStepAux t fuel s).2 = List.range' s (N + 1 - s) := by
  intro fuel
  induction fuel with
  | zero => intro s hs hf; omega
  | succ f ih =>
    intro s hs hf
    by_cases hsN : s = N
    · subst hsN
      simp only [iterHistoryStepAux]
      rw [if_pos hshort]
      have h1 : s + 1 - s = 1 := by omega
      rw [h1]
      rfl
    · have hlt : s < N := by omega
      have hge : ¬ (t s).length < pageSize := Nat.not_lt.mpr (hfull s hlt)
      simp only [iterHistoryStepAux]
      rw [if_neg hge]
      simp only
      rw [ih (s + 1) (by omega) (by omega)]
      have h1 : N + 1 - s = (N - s) + 1 := by omega
      have h2 : N + 1 - (s + 1) = N - s := by omega
      rw [h1, h2]
      rfl

/-! ### Claim theorems -/

/-- C6: pagination of iter_history_step.  Requests start at page 0; as long
as a page returns pageSize (or more) records the next page index is
requested, and the first page returning strictly fewer than pageSize records
is the last request for the sub-range; so with page 0 full and page 1 short,
exactly the two requests 0 and 1 are issued.  The fuel bound only has to be
large enough to reach the first short page. -/
theorem iter_history_step_pagination :
    (∀ (t : Nat → List RawRecord) (N fuel : Nat),
      (∀ p, p < N → pageSize ≤ (t p).length) → (t N).length < pageSize → N < fuel →
      (iterHistoryStepAux t fuel 0).2 = List.range (N + 1)) ∧
    (∀ (t : Nat → List RawRecord) (fuel : Nat),
      (t 0).length = pageSize → (t 1).length < pageSize → 1 < fuel →
      (iterHistoryStepAux t fuel 0).2 = [0, 1]) := by
  constructor
  · intro t N fuel hfull hshort hfuel
    rw [iterHistoryStepAux_pages t N hshort hfull fuel 0 (Nat.zero_le _) (by omega)]
    rw [List.range_eq_range']
    simp
  · intro t fuel h0 h1 hfuel
    rw [iterHistoryStepAux_pages t 1 h1
      (fun p hp => by
        have hp0 : p = 0 := Nat.lt_one_iff.mp hp
        subst hp0
        exact le_of_eq h0.symm)
      fuel 0 (by omega) (by omega)]
    rfl

/-- Witness for C6: a transport with a full page 0 and an empty page 1
issues exactly the requests 0 and 1. -/
theorem iter_history_step_pagination_witness :
    (iterHistoryStepAux
      (fun p => if p = 0 then List.replicate pageSize (RawRecord.mk 0 "" "" 0 0 "") else [])
      3 0).2 = [0, 1] :=
  iter_history_step_pagination.2 _ 3 (by simp) (by simp [pageSize]) (by omega)

/-- C9 (amended): decoding a remote record (or an archived CSV row) copies
the numeric source values into the Record without validation or clamping, so
quantity and cost are non-negative exactly when the decoded source values
are; the unconditional non-negativity claimed by the spec is not enforced. -/
theorem decode_preserves_values (r : RawRecord) :
    (decodeRecord r).quantity = r.quantity ∧ (decodeRecord r).cost = r.price ∧
    (0 ≤ (decodeRecord r).quantity ↔ 0 ≤ r.quantity) ∧
    (0 ≤ (decodeRecord r).cost ↔ 0 ≤ r.price) :=
  ⟨rfl, rfl, Iff.rfl, Iff.rfl⟩

/-- Counterexample for C9 as stated: a source row with a negative numeric
quantity decodes to a Record with negative quantity. -/
theorem decode_nonneg_counterexample :
    (decodeRecord (RawRecord.mk 0 "VOICE" "OUT" (-1) 0 "x")).quantity < 0 := by
  decide

/-- C8 (amended): the dataclass order is lexicographic with the timestamp as
the most significant field: an earlier timestamp forces less-than, less-than
forces a not-later timestamp, no record is less than itself, and records
whose fields are all equal are equal (so set-based dedup collapses exact
duplicates); equal timestamps are further tie-broken by the remaining
fields, so less-than does not imply a strictly earlier timestamp. -/
theorem entry_order_spec (r1 r2 : Entry) :
    (r1.date < r2.date → entryLt r1 r2 = true) ∧
    (entryLt r1 r2 = true → r1.date ≤ r2.date) ∧
    entryLt r1 r1 = false ∧
    (r1.date = r2.date → r1.type = r2.type → r1.direction = r2.direction →
      r1.quantity = r2.quantity → r1.cost = r2.cost → r1.number = r2.number → r1 = r2) := by
  refine ⟨?_, ?_, ?_, ?_⟩
  · intro h
    unfold entryLt
    rw [if_pos (Nat.ne_of_lt h)]
    exact decide_eq_true h
  · intro h
    by_cases hd : r1.date = r2.date
    · exact le_of_eq hd
    · unfold entryLt at h
      rw [if_pos hd] at h
      exact le_of_lt (of_decide_eq_true h)
  · unfold entryLt
    rw [if_neg (by simp), if_neg (by simp), if_neg (by simp), if_neg (by simp),
      if_neg (by simp)]
    exact decide_eq_false (lt_irrefl _)
  · intro h1 h2 h3 h4 h5 h6
    cases r1
    cases r2
    simp_all

/-- Witness for C8's amended ordering: a strictly earlier timestamp makes
the record strictly smaller. -/
theorem entry_order_spec_witness :
    entryLt (Entry.mk 0 "A" "B" 1 2 "C") (Entry.mk 1 "A" "B" 1 2 "C") = true :=
  (entry_order_spec _ _).1 (by decide)

/-- Counterexample for C8 as stated: two records with equal timestamps but
different quantities still compare strictly, so less-than does not imply a
strictly earlier timestamp. -/
theorem entry_order_claim_counterexample :
    entryLt (Entry.mk 5 "A" "X" 1 0 "n") (Entry.mk 5 "A" "X" 2 0 "n") = true ∧
    ¬ (Entry.mk 5 "A" "X" 1 0 "n").date < (Entry.mk 5 "A" "X" 2 0 "n").date := by
  decide

/-- C1 (amended): for start at most min(end, now), the window plan of
iter_history is a finite nonempty ordered sequence whose first sub-range
starts at start, whose last sub-range ends at min(end, now), with every
sub-range at most 15 days long and covering together exactly the interval
from start to min(end, now); each next sub-range starts exactly AT the
previous one's end (not one second after it), so consecutive sub-ranges
share their boundary instant instead of being disjoint. -/
theorem iter_history_window_plan_spec (start e now : Nat) (h : start ≤ min e now) :
    iterHistoryPlan start e now ≠ [] ∧
    (iterHistoryPlan start e now).head?.map Prod.fst = some start ∧
    (iterHistoryPlan start e now).getLast?.map Prod.snd = some (min e now) ∧
    (∀ w ∈ iterHistoryPlan start e now, w.1 ≤ w.2 ∧ w.2 ≤ w.1 + STEP) ∧
    ((iterHistoryPlan start e now).map Prod.fst).Pairwise (fun x y => x < y) ∧
    chainedAtEnds (iterHistoryPlan start e now) = true ∧
    (∀ x, (start ≤ x ∧ x ≤ min e now) ↔
      ∃ w ∈ iterHistoryPlan start e now, w.1 ≤ x ∧ x ≤ w.2) := by
  have hplan : iterHistoryPlan start e now =
      planWindowsAux ((min e now - start) / STEP + 1) start (min e now) := rfl
  have hfuel : (min e now - start) / STEP < (min e now - start) / STEP + 1 :=
    Nat.lt_succ_self _
  rw [hplan]
  refine ⟨?_, ?_, ?_, ?_, ?_, ?_, ?_⟩
  · rw [planWindowsAux_succ_of_le h]
    simp
  · rw [planWindowsAux_succ_of_le h]
    rfl
  · obtain ⟨w, hw1, hw2⟩ := planWindowsAux_last (min e now) _ start h hfuel
    rw [hw1]
    simp [hw2]
  · intro w hw
    have := planWindowsAux_mem (min e now) _ start w hw
    exact ⟨this.2.2.1, this.2.2.2.1⟩
  · exact planWindowsAux_starts (min e now) _ start
  · exact planWindowsAux_chain (min e now) _ start
  · intro x
    constructor
    · rintro ⟨hx1, hx2⟩
      exact planWindowsAux_cover (min e now) _ start h hfuel x hx1 hx2
    · rintro ⟨w, hw, hw1, hw2⟩
      have := planWindowsAux_mem (min e now) _ start w hw
      omega

/-- Witness for C1: the plan for the range 3 .. 10 with now = 20 exists. -/
theorem iter_history_window_plan_spec_witness :
    iterHistoryPlan 3 10 20 ≠ [] :=
  (iter_history_window_plan_spec 3 10 20 (by decide)).1

/-- Counterexample for C1 as stated: for the range 0 .. 1296005 (clamped end
five seconds past one 15-day step), the plan is the two windows
(0, 1296000) and (1296000, 1296005): the second starts AT the first window's
end, not one second after it, and the two windows overlap at the shared
instant 1296000 instead of being disjoint. -/
theorem iter_history_window_plan_claim_counterexample :
    iterHistoryPlan 0 1296005 1296005 = [(0, 1296000), (1296000, 1296005)] ∧
    chainedPlusOne (iterHistoryPlan 0 1296005 1296005) = false ∧
    (∃ w1 ∈ iterHistoryPlan 0 1296005 1296005,
      ∃ w2 ∈ iterHistoryPlan 0 1296005 1296005,
        w1 ≠ w2 ∧ w1.1 ≤ 1296000 ∧ 1296000 ≤ w1.2 ∧ w2.1 ≤ 1296000 ∧ 1296000 ≤ w2.2) := by
  decide

/-- C7 (amended): requesting the calendar month 2023-02 derives the exact
month bounds 2023-02-01T00:00:00 .. 2023-02-28T23:59:59 and (when now is not
before the month end) the planner outputs exactly the two sub-ranges
2023-02-01T00:00:00 .. 2023-02-16T00:00:00 and
2023-02-16T00:00:00 .. 2023-02-28T23:59:59: the first window spans the full
15 days, and the second starts at the first window's end. -/
theorem iter_history_month_feb2023 (now : Nat)
    (h : dtSecs 2023 2 28 23 59 59 ≤ now) :
    iterHistoryMonthPlan 2023 2 now =
      [(dtSecs 2023 2 1 0 0 0, dtSecs 2023 2 16 0 0 0),
       (dtSecs 2023 2 16 0 0 0, dtSecs 2023 2 28 23 59 59)] := by
  have he : ((if (2 : Nat) == 12 then dtSecs (2023 + 1) 1 1 0 0 0
      else dtSecs 2023 (2 + 1) 1 0 0 0) - 1) = dtSecs 2023 2 28 23 59 59 := by decide
  simp only [iterHistoryMonthPlan, iterHistoryPlan, he]
  rw [Nat.min_eq_left h]
  decide

/-- Witness for C7's amended statement at a concrete now in March 2023. -/
theorem iter_history_month_feb2023_witness :
    iterHistoryMonthPlan 2023 2 (dtSecs 2023 3 10 0 0 0) =
      [(dtSecs 2023 2 1 0 0 0, dtSecs 2023 2 16 0 0 0),
       (dtSecs 2023 2 16 0 0 0, dtSecs 2023 2 28 23 59 59)] :=
  iter_history_month_feb2023 _ (by decide)

/-- Counterexample for C7 as stated: with now in March 2023, the planner's
output for month 2023-02 is not the claimed pair of sub-ranges ending and
resuming around 2023-02-15. -/
theorem iter_history_month_claim_counterexample :
    iterHistoryMonthPlan 2023 2 (dtSecs 2023 3 10 0 0 0) ≠
      [(dtSecs 2023 2 1 0 0 0, dtSecs 2023 2 15 0 0 0),
       (dtSecs 2023 2 15 0 0 1, dtSecs 2023 2 28 23 59 59)] := by
  decide

/-! ### Reconciler claims -/

lemma all_quantity_eq_iff (c : Entry) (g : List Entry) :
    ((c :: g).all fun x => x.quantity == c.quantity) = true ↔
      ∀ x ∈ c :: g, ∀ y ∈ c :: g, x.quantity = y.quantity := by
  rw [List.all_eq_true]
  constructor
  · intro hall x hx y hy
    exact (beq_iff_eq.mp (hall x hx)).trans (beq_iff_eq.mp (hall y hy)).symm
  · intro hxy x hx
    exact beq_iff_eq.mpr (hxy x hx c (List.mem_cons_self _ _))

lemma forall₂_catProcess_map {l : List Entry} :
    ∀ {ks : List (Nat × String)} {out : List Entry},
      List.Forall₂ (fun k r => catProcess l k = some r) ks out → out.map keyOf = ks := by
  intro ks out h
  induction h with
  | nil => rfl
  | cons hp _ ih => rw [List.map_cons, (catProcess_some_max hp).2.1, ih]

/-- C2: conflict detection of cat.  If two records of the combined input
share an identity key (timestamp, category), their quantities differ and the
category is not the drift-tolerant DATA category, then the assert fails and
the whole merge fails instead of returning a merged list. -/
theorem cat_conflict_detected (a b : List Entry) (e1 e2 : Entry)
    (h1 : e1 ∈ a ++ b) (h2 : e2 ∈ a ++ b) (hk : keyOf e1 = keyOf e2)
    (hq : e1.quantity ≠ e2.quantity) (hd : e1.type ≠ "DATA") :
    cat a b = none := by
  have hkey : keyOf e1 ∈ catKeys (a ++ b) :=
    mem_catKeys.mpr (List.mem_map.mpr ⟨e1, h1, rfl⟩)
  have hnone : catProcess (a ++ b) (keyOf e1) = none :=
    catProcess_none_of_conflict h1 h2 rfl hk.symm hq hd
  exact optionMapM_eq_none (keyOf e1) hkey hnone

/-- Witness for C2: same key, quantities 5 and 7, category VOICE. -/
theorem cat_conflict_detected_witness :
    cat [Entry.mk 3 "VOICE" "IN" 5 0 "a"] [Entry.mk 3 "VOICE" "OUT" 7 0 "b"] = none :=
  cat_conflict_detected _ _ (Entry.mk 3 "VOICE" "IN" 5 0 "a") (Entry.mk 3 "VOICE" "OUT" 7 0 "b")
    (by decide) (by decide) (by decide) (by decide) (by decide)

/-- C4 (amended): merging a collection with itself is the same as merging it
with the empty collection, including the failure cases; it is NOT in general
the sorted set-based dedup of the collection, because two same-key records
that differ in other fields are collapsed to one representative by cat but
kept distinct by set-based dedup. -/
theorem cat_self_eq_cat_nil (X : List Entry) : cat X X = cat X [] := by
  unfold cat
  rw [List.append_nil, catKeys_append_self]
  apply optionMapM_congr
  intro k _
  cases hf : X.filter (fun x => decide (keyOf x = k)) with
  | nil =>
    have hf2 : (X ++ X).filter (fun x => decide (keyOf x = k)) = [] := by
      rw [List.filter_append, hf]
      rfl
    rw [catProcess_eq_nil hf2, catProcess_eq_nil hf]
  | cons hd tl =>
    have hf2 : (X ++ X).filter (fun x => decide (keyOf x = k)) = hd :: (tl ++ hd :: tl) := by
      rw [List.filter_append, hf]
      rfl
    rw [catProcess_eq_cons hf2, catProcess_eq_cons hf]
    have hall : ((hd :: (tl ++ hd :: tl)).all fun x => x.quantity == hd.quantity) =
        ((hd :: tl).all fun x => x.quantity == hd.quantity) := by
      apply Bool.eq_iff_iff.mpr
      rw [all_quantity_eq_iff, all_quantity_eq_iff]
      constructor
      · intro hq x hx y hy
        have hsub : ∀ z, z ∈ hd :: tl → z ∈ hd :: (tl ++ hd :: tl) := by
          intro z hz
          rcases List.mem_cons.mp hz with rfl | hz
          · exact List.mem_cons_self _ _
          · exact List.mem_cons_of_mem _ (List.mem_append_left _ hz)
        exact hq x (hsub x hx) y (hsub y hy)
      · intro hq x hx y hy
        have hsub : ∀ z, z ∈ hd :: (tl ++ hd :: tl) → z ∈ hd :: tl := by
          intro z hz
          rcases List.mem_cons.mp hz with rfl | hz
          · exact List.mem_cons_self _ _
          · rcases List.mem_append.mp hz with hz | hz
            · exact List.mem_cons_of_mem _ hz
            · exact hz
        exact hq x (hsub x hx) y (hsub y hy)
    have hmax : maxByQuantity hd (tl ++ hd :: tl) = maxByQuantity hd tl := by
      rw [maxByQuantity_append]
      apply maxByQuantity_eq_self
      intro x hx
      rcases List.mem_cons.mp hx with rfl | hx
      · exact (maxByQuantity_ge tl x).1
      · exact (maxByQuantity_ge tl hd).2 x hx
    rw [hall, hmax]

/-- Counterexample for C4 as stated: two same-key DATA records with
different quantities are collapsed by cat to the single maximum record, but
set-based dedup keeps both, so cat X X differs from dedup X. -/
theorem cat_idem_claim_counterexample :
    cat [Entry.mk 0 "DATA" "IN" 5 0 "a", Entry.mk 0 "DATA" "IN" 7 0 "b"]
        [Entry.mk 0 "DATA" "IN" 5 0 "a", Entry.mk 0 "DATA" "IN" 7 0 "b"] ≠
      some (sortedDedup
        [Entry.mk 0 "DATA" "IN" 5 0 "a", Entry.mk 0 "DATA" "IN" 7 0 "b"]) := by
  decide

/-- C3: conflict-free merge contract of cat.  If the combined input has no
same-key quantity mismatch on a non-DATA category, the merge succeeds and
yields exactly one record per distinct identity key, in strictly ascending
key order, each being an input record of maximal quantity among its key
group; in particular two same-key DATA records with quantities 100 and 120
reconcile to the single record with quantity 120. -/
theorem cat_no_conflict_spec :
    (∀ a b : List Entry,
      (∀ e1 ∈ a ++ b, ∀ e2 ∈ a ++ b, keyOf e1 = keyOf e2 → e1.type ≠ "DATA" →
        e1.quantity = e2.quantity) →
      ∃ out, cat a b = some out ∧
        (out.map keyOf).Pairwise keyLt ∧
        (∀ k ∈ (a ++ b).map keyOf, k ∈ out.map keyOf) ∧
        (∀ r ∈ out, r ∈ a ++ b ∧
          ∀ x ∈ a ++ b, keyOf x = keyOf r → x.quantity ≤ r.quantity)) ∧
    cat [Entry.mk (dtSecs 2023 1 1 10 0 0) "DATA" "OUT" 100 0 "555"]
        [Entry.mk (dtSecs 2023 1 1 10 0 0) "DATA" "OUT" 120 0 "555"] =
      some [Entry.mk (dtSecs 2023 1 1 10 0 0) "DATA" "OUT" 120 0 "555"] := by
  constructor
  · intro a b hnc
    have hall : ∀ k ∈ catKeys (a ++ b), ∃ r, catProcess (a ++ b) k = some r ∧
        catProcess (a ++ b) k = some r := by
      intro k hk
      obtain ⟨x, hx, hkx⟩ := List.mem_map.mp (mem_catKeys.mp hk)
      have hsome : ∃ r, catProcess (a ++ b) k = some r := by
        refine catProcess_some_of ⟨x, hx, hkx⟩ ?_
        by_cases hdata : k.2 = "DATA"
        · exact Or.inl hdata
        · refine Or.inr ?_
          intro y hy hky z hz hkz
          have hyt : y.type ≠ "DATA" := by
            intro hyt
            apply hdata
            rw [← hky]
            exact hyt
          exact hnc y hy z hz (hky.trans hkz.symm) hyt
      obtain ⟨r, hr⟩ := hsome
      exact ⟨r, hr, hr⟩
    obtain ⟨out, hout, hfa⟩ := optionMapM_some_forall₂ hall
    have hmap : out.map keyOf = catKeys (a ++ b) := forall₂_catProcess_map hfa
    refine ⟨out, hout, ?_, ?_, ?_⟩
    · rw [hmap]
      exact catKeys_pairwise_lt _
    · intro k hk
      rw [hmap]
      exact mem_catKeys.mpr hk
    · intro r hr
      obtain ⟨k, _, hck⟩ := optionMapM_mem_some hout r hr
      obtain ⟨hmem, hkey, hmax⟩ := catProcess_some_max hck
      refine ⟨hmem, ?_⟩
      intro x hx hkx
      apply hmax x hx
      rw [hkx, hkey]
  · decide

/-- Witness for C3 at two single-record collections with distinct keys. -/
theorem cat_no_conflict_spec_witness :
    ∃ out,
      cat [Entry.mk 1 "SMS" "IN" 2 0 "x"] [Entry.mk 5 "VOICE" "OUT" 60 1 "y"] = some out ∧
      (out.map keyOf).Pairwise keyLt ∧
      (∀ k ∈ ([Entry.mk 1 "SMS" "IN" 2 0 "x"] ++ [Entry.mk 5 "VOICE" "OUT" 60 1 "y"]).map keyOf,
        k ∈ out.map keyOf) ∧
      (∀ r ∈ out, r ∈ [Entry.mk 1 "SMS" "IN" 2 0 "x"] ++ [Entry.mk 5 "VOICE" "OUT" 60 1 "y"] ∧
        ∀ x ∈ [Entry.mk 1 "SMS" "IN" 2 0 "x"] ++ [Entry.mk 5 "VOICE" "OUT" 60 1 "y"],
          keyOf x = keyOf r → x.quantity ≤ r.quantity) :=
  cat_no_conflict_spec.1 [Entry.mk 1 "SMS" "IN" 2 0 "x"] [Entry.mk 5 "VOICE" "OUT" 60 1 "y"]
    (by decide)

/-- C5 (amended): supplying the two collections in either order yields the
same merge whenever, for every identity key, all records attaining the
maximal quantity of that key group are one and the same record; without
that uniqueness the first-maximum tie-break can pick different
representatives depending on the order of the collections. -/
theorem cat_comm_of_unique_max (A B : List Entry)
    (h : ∀ e1 ∈ A ++ B, ∀ e2 ∈ A ++ B, keyOf e1 = keyOf e2 →
      (∀ x ∈ A ++ B, keyOf x = keyOf e1 → x.quantity ≤ e1.quantity) →
      (∀ x ∈ A ++ B, keyOf x = keyOf e2 → x.quantity ≤ e2.quantity) →
      e1 = e2) :
    cat A B = cat B A := by
  unfold cat
  have hkeys : catKeys (A ++ B) = catKeys (B ++ A) :=
    catKeys_congr_perm (by rw [List.map_append, List.map_append]; exact List.perm_append_comm)
  rw [← hkeys]
  apply optionMapM_congr
  intro k _
  have hgperm : ((A ++ B).filter (fun x => decide (keyOf x = k))).Perm
      ((B ++ A).filter (fun x => decide (keyOf x = k))) := by
    rw [List.filter_append, List.filter_append]
    exact List.perm_append_comm
  cases hf1 : (A ++ B).filter (fun x => decide (keyOf x = k)) with
  | nil =>
    have hf2 : (B ++ A).filter (fun x => decide (keyOf x = k)) = [] := by
      rw [hf1] at hgperm
      exact hgperm.symm.eq_nil
    rw [catProcess_eq_nil hf1, catProcess_eq_nil hf2]
  | cons hd1 tl1 =>
    cases hf2 : (B ++ A).filter (fun x => decide (keyOf x = k)) with
    | nil =>
      rw [hf1, hf2] at hgperm
      exact absurd hgperm.eq_nil (by simp)
    | cons hd2 tl2 =>
      rw [hf1, hf2] at hgperm
      rw [catProcess_eq_cons hf1, catProcess_eq_cons hf2]
      have hmem1 : ∀ z ∈ hd1 :: tl1, z ∈ A ++ B ∧ keyOf z = k := by
        intro z hz
        have hzf : z ∈ (A ++ B).filter (fun x => decide (keyOf x = k)) := by
          rw [hf1]; exact hz
        have hm := List.mem_filter.mp hzf
        exact ⟨hm.1, by simpa using hm.2⟩
      have hmem2 : ∀ z ∈ hd2 :: tl2, z ∈ A ++ B ∧ keyOf z = k := by
        intro z hz
        exact hmem1 z (hgperm.symm.subset hz)
      have hcond : (k.2 == "DATA" || (hd1 :: tl1).all fun x => x.quantity == hd1.quantity)
          = (k.2 == "DATA" || (hd2 :: tl2).all fun x => x.quantity == hd2.quantity) := by
        by_cases hdata : (k.2 == "DATA") = true
        · rw [hdata, Bool.true_or, Bool.true_or]
        · rw [Bool.not_eq_true] at hdata
          rw [hdata, Bool.false_or, Bool.false_or]
          apply Bool.eq_iff_iff.mpr
          rw [all_quantity_eq_iff, all_quantity_eq_iff]
          constructor
          · intro hq x hx y hy
            exact hq x (hgperm.symm.subset hx) y (hgperm.symm.subset hy)
          · intro hq x hx y hy
            exact hq x (hgperm.subset hx) y (hgperm.subset hy)
      have hmax : maxByQuantity hd1 tl1 = maxByQuantity hd2 tl2 := by
        have hin1 : maxByQuantity hd1 tl1 ∈ hd1 :: tl1 := maxByQuantity_mem tl1 hd1
        have hin2 : maxByQuantity hd2 tl2 ∈ hd2 :: tl2 := maxByQuantity_mem tl2 hd2
        obtain ⟨hm1AB, hm1k⟩ := hmem1 _ hin1
        obtain ⟨hm2AB, hm2k⟩ := hmem2 _ hin2
        apply h _ hm1AB _ hm2AB (hm1k.trans hm2k.symm)
        · intro x hx hkx
          have hxf : x ∈ hd1 :: tl1 := by
            rw [← hf1]
            exact List.mem_filter.mpr ⟨hx, by simp [hkx, hm1k]⟩
          rcases List.mem_cons.mp hxf with rfl | hxf
          · exact (maxByQuantity_ge tl1 x).1
          · exact (maxByQuantity_ge tl1 hd1).2 x hxf
        · intro x hx hkx
          have hxf : x ∈ hd2 :: tl2 := by
            apply hgperm.subset
            rw [← hf1]
            exact List.mem_filter.mpr ⟨hx, by simp [hkx, hm2k]⟩
          rcases List.mem_cons.mp hxf with rfl | hxf
          · exact (maxByQuantity_ge tl2 x).1
          · exact (maxByQuantity_ge tl2 hd2).2 x hxf
      rw [hcond, hmax]

/-- Witness for C5's amended statement: distinct keys, unique maxima. -/
theorem cat_comm_of_unique_max_witness :
    cat [Entry.mk 1 "SMS" "IN" 2 0 "x"] [Entry.mk 5 "VOICE" "OUT" 60 1 "y"] =
      cat [Entry.mk 5 "VOICE" "OUT" 60 1 "y"] [Entry.mk 1 "SMS" "IN" 2 0 "x"] :=
  cat_comm_of_unique_max [Entry.mk 1 "SMS" "IN" 2 0 "x"] [Entry.mk 5 "VOICE" "OUT" 60 1 "y"]
    (by decide)

/-- Counterexample for C5 as stated: two same-key VOICE records with equal
quantities (so no non-drift conflict) but different other fields; the merge
keeps whichever collection was supplied first, so the two orders differ. -/
theorem cat_comm_claim_counterexample :
    (∀ e1 ∈ ([Entry.mk 0 "VOICE" "IN" 5 0 "a"] ++ [Entry.mk 0 "VOICE" "OUT" 5 0 "b"]),
      ∀ e2 ∈ ([Entry.mk 0 "VOICE" "IN" 5 0 "a"] ++ [Entry.mk 0 "VOICE" "OUT" 5 0 "b"]),
        keyOf e1 = keyOf e2 → e1.type ≠ "DATA" → e1.quantity = e2.quantity) ∧
    cat [Entry.mk 0 "VOICE" "IN" 5 0 "a"] [Entry.mk 0 "VOICE" "OUT" 5 0 "b"] ≠
      cat [Entry.mk 0 "VOICE" "OUT" 5 0 "b"] [Entry.mk 0 "VOICE" "IN" 5 0 "a"] := by
  constructor
  · decide
  · decide

/-- C10: the tie-break of cat is first-maximum in traversal order.  Every
record of a successful merge splits its key group (the records of its key
across the first collection then the second, in order) into a strictly
smaller prefix and a not-larger suffix, so it is the first record attaining
the group's maximal quantity; consequently, for same-key records of equal
maximal quantity but different other fields, which record survives depends
on the order in which the collections are supplied. -/
theorem cat_tie_break_first_max :
    (∀ (a b out : List Entry), cat a b = some out → ∀ r ∈ out,
      ∃ l1 l2, (a ++ b).filter (fun x => decide (keyOf x = keyOf r)) = l1 ++ r :: l2 ∧
        (∀ x ∈ l1, x.quantity < r.quantity) ∧ (∀ x ∈ l2, x.quantity ≤ r.quantity)) ∧
    (cat [Entry.mk 10 "SMS" "IN" 3 0 "x"] [Entry.mk 10 "SMS" "OUT" 3 1 "y"] =
        some [Entry.mk 10 "SMS" "IN" 3 0 "x"] ∧
      cat [Entry.mk 10 "SMS" "OUT" 3 1 "y"] [Entry.mk 10 "SMS" "IN" 3 0 "x"] =
        some [Entry.mk 10 "SMS" "OUT" 3 1 "y"]) := by
  constructor
  · intro a b out hout r hr
    obtain ⟨k, _, hck⟩ := optionMapM_mem_some hout r hr
    obtain ⟨hkey, l1, l2, heq, hlt, hle⟩ := catProcess_some_spec hck
    rw [← hkey] at heq
    exact ⟨l1, l2, heq, hlt, hle⟩
  · exact ⟨by decide, by decide⟩

/-- Witness for C10's general part at a concrete merge. -/
theorem cat_tie_break_first_max_witness :
    ∃ l1 l2,
      ([Entry.mk 10 "SMS" "IN" 3 0 "x"] ++ [Entry.mk 10 "SMS" "OUT" 3 1 "y"]).filter
          (fun x => decide (keyOf x = keyOf (Entry.mk 10 "SMS" "IN" 3 0 "x"))) =
        l1 ++ Entry.mk 10 "SMS" "IN" 3 0 "x" :: l2 ∧
      (∀ x ∈ l1, x.quantity < (Entry.mk 10 "SMS" "IN" 3 0 "x").quantity) ∧
      (∀ x ∈ l2, x.quantity ≤ (Entry.mk 10 "SMS" "IN" 3 0 "x").quantity) :=
  cat_tie_break_first_max.1 [Entry.mk 10 "SMS" "IN" 3 0 "x"] [Entry.mk 10 "SMS" "OUT" 3 1 "y"]
    [Entry.mk 10 "SMS" "IN" 3 0 "x"] (by decide) (Entry.mk 10 "SMS" "IN" 3 0 "x") (by decide)
